import Mathlib

/-!
Verification model of the replay-buffer / TD3 training core of
`ddqnAgent.py` (with `networkModel.py` networks treated as the black-box
collaborators the spec declares them to be).

Modelling conventions:
* Python floats are modelled as rationals (`ℚ`).  The two non-rational
  float functions the code uses — `p ** alpha` (priority exponentiation,
  `alpha = 0.6`) and `x ** (-beta)` (importance-weight exponentiation,
  `beta ∈ [0.4, 1]`) — are abstracted as explicit function parameters
  (`alphaPow`, `negPow`); theorems assume of them only properties that the
  real functions have (strict positivity, antitonicity on positives).
* Randomness is externalized: every random draw the code makes
  (`random.random()`, `random.sample`, `torch.randn_like`,
  `np.random.normal`) becomes an explicit argument, constrained by the
  documented contract of the library call that produces it.
* The segment trees come from `baselines.common.segment_tree` (an external
  dependency, not part of this repository); they are modelled
  extensionally by their leaf arrays, with `sum`/`min`/`find_prefixsum_idx`
  given by their documented contracts: `sum(a, b)` reduces leaves
  `[a, b)` (baselines decrements `end` before an inclusive reduce),
  `min()`/`sum()` reduce all `capacity` leaves, and
  `find_prefixsum_idx m` returns the least leaf index whose inclusive
  prefix sum exceeds `m` (valid for `m` below the total mass, the only
  regime the buffer uses).
* A Python `deque(maxlen=c)` is a list whose `append` drops the leftmost
  element once the length reaches `c`.
-/

set_option maxRecDepth 8000

namespace DdqnAgent

/-! ### Global parameters (ddqnAgent.py lines 18-35, 197-204) -/

def GAMMA : ℚ := 99 / 100

def BUFFER_SIZE : ℕ := 100000

def BATCH_SIZE : ℕ := 4

def LEARN_EVERY : ℕ := 4

def UPDATE_CRITIC_TARGET_STEPS : ℕ := 5

def UPDATE_ACTOR_TARGET_STEPS : ℕ := 5

def TRAIN_ACTOR_STEPS : ℕ := 5

def TAU : ℚ := 1 / 1000

/-- Tree capacity chosen by `PrioritizedReplayBuffer.__init__`: the loop
`capacity = 1; while capacity < BUFFER_SIZE: capacity *= 2` yields the least
power of two at or above `BUFFER_SIZE`, namely `2 ^ 17 = 131072`. -/
def perCapacity : ℕ := 2 ^ 17

/-! ### Python deque with maxlen (the storage behind both replay buffers) -/

/-- `deque(maxlen = cap).append x`: appends on the right and, when the deque
is already at capacity, discards the leftmost element. -/
def dequeAppend (cap : ℕ) (l : List α) (x : α) : List α :=
  if l.length < cap then l ++ [x] else (l ++ [x]).drop (l.length + 1 - cap)

/-! ### ReplayBuffer (ddqnAgent.py lines 524-566) -/

/-- One stored transition (`self.experience` namedtuple); the model uses a
one-dimensional state/action space, each field a float. `done` is stored as
the 0/1 float the sampling path converts it to. -/
structure Experience where
  state : ℚ
  action : ℚ
  reward : ℚ
  nextState : ℚ
  done : ℚ
deriving DecidableEq

instance : Inhabited Experience := ⟨⟨0, 0, 0, 0, 0⟩⟩

/-- `ReplayBuffer.addMem`: wrap the arguments in an experience tuple and
append it to the `deque(maxlen = BUFFER_SIZE)`. -/
def ReplayBuffer.addMem (buf : List Experience)
    (state action reward nextState done : ℚ) : List Experience :=
  dequeAppend BUFFER_SIZE buf ⟨state, action, reward, nextState, done⟩

/-- `ReplayBuffer.memSample`: `random.sample(memBuff, k = batchSize)` either
raises `ValueError` (when the population is smaller than `k`) or returns
`batchSize` elements at pairwise-distinct positions; the drawn positions are
the explicit oracle argument `sel`.  The chosen transitions are then split
into five parallel arrays.  The second component of the result is the buffer
after the call (sampling never mutates it). -/
def ReplayBuffer.memSample (buf : List Experience) (sel : List ℕ) :
    Except Unit ((List ℚ × List ℚ × List ℚ × List ℚ × List ℚ) × List Experience) :=
  if buf.length < BATCH_SIZE then Except.error () else
    let picked := sel.map (fun i => buf.getD i default)
    Except.ok ((picked.map (fun e => e.state),
                picked.map (fun e => e.action),
                picked.map (fun e => e.reward),
                picked.map (fun e => e.nextState),
                picked.map (fun e => e.done)), buf)

/-! ### PrioritizedReplayBuffer (ddqnAgent.py lines 568-660)

State of the prioritized buffer.  The two segment trees are modelled by
their leaf arrays (`sumLeaf`, `minLeaf`); internal nodes of a correct
segment tree are determined by the leaves, and `baselines`' trees are
initialized with neutral elements `0.0` (sum) and `float('inf')` (min) —
the min-tree leaves therefore live in `WithTop ℚ`.

Transitions are identified by labels (`ℕ`); `prio` is a ghost map recording,
for each transition label, the last priority associated with it (seeded by
`addMem` with the current `maxPriority`, overwritten by `updatePriorities`
through the slot the transition occupies at update time).  The ghost map is
what makes the spec's per-slot invariant expressible. -/

structure PERState where
  memBuff : List ℕ
  sumLeaf : ℕ → ℚ
  minLeaf : ℕ → WithTop ℚ
  maxPriority : ℚ
  nextIdx : ℕ
  prio : ℕ → ℚ

/-- Fresh `PrioritizedReplayBuffer`: empty deque, neutral tree leaves,
`maxPriority = 1.0`, write slot 0. -/
def PERinit : PERState where
  memBuff := []
  sumLeaf := fun _ => 0
  minLeaf := fun _ => ⊤
  maxPriority := 1
  nextIdx := 0
  prio := fun _ => 0

/-- `PrioritizedReplayBuffer.addMem`: base insertion (deque append), seed
both trees at the current write slot with `maxPriority ** alpha`, advance
the write slot mod `BUFFER_SIZE`.  (`alphaPow` stands for `(·) ** alpha`.) -/
def perAddMem (alphaPow : ℚ → ℚ) (s : PERState) (t : ℕ) : PERState :=
  let idx := s.nextIdx
  { memBuff := dequeAppend BUFFER_SIZE s.memBuff t
    sumLeaf := Function.update s.sumLeaf idx (alphaPow s.maxPriority)
    minLeaf := Function.update s.minLeaf idx ((alphaPow s.maxPriority : ℚ) : WithTop ℚ)
    maxPriority := s.maxPriority
    nextIdx := (idx + 1) % BUFFER_SIZE
    prio := Function.update s.prio t s.maxPriority }

/-- A sequence of `addMem` calls. -/
def perAddList (alphaPow : ℚ → ℚ) (s : PERState) (ts : List ℕ) : PERState :=
  ts.foldl (perAddMem alphaPow) s

/-- One iteration of the `updatePriorities` loop body (after its asserts
have passed): write `priority ** alpha` into both trees at slot `idx` and
raise `maxPriority`.  The ghost map records the new priority for the
transition currently occupying slot `idx`. -/
def perUpdStep (alphaPow : ℚ → ℚ) (s : PERState) (pr : ℕ × ℚ) : PERState :=
  { memBuff := s.memBuff
    sumLeaf := Function.update s.sumLeaf pr.1 (alphaPow pr.2)
    minLeaf := Function.update s.minLeaf pr.1 ((alphaPow pr.2 : ℚ) : WithTop ℚ)
    maxPriority := max s.maxPriority pr.2
    nextIdx := s.nextIdx
    prio := Function.update s.prio (s.memBuff.getD pr.1 0) pr.2 }

/-- Loop of `PrioritizedReplayBuffer.updatePriorities`: per pair the code
asserts `priority > 0` and `0 <= idx < len(memBuff)` (assertion failure
modelled as `Except.error`), then performs the update step. -/
def perUpdLoop (alphaPow : ℚ → ℚ) : List (ℕ × ℚ) → PERState → Except Unit PERState
  | [], s => Except.ok s
  | pr :: rest, s =>
      if 0 < pr.2 ∧ pr.1 < s.memBuff.length then
        perUpdLoop alphaPow rest (perUpdStep alphaPow s pr)
      else Except.error ()

/-- `PrioritizedReplayBuffer.updatePriorities`: asserts the two lists have
equal length, then runs the update loop over the pairs. -/
def perUpdatePriorities (alphaPow : ℚ → ℚ) (s : PERState)
    (idxs : List ℕ) (ps : List ℚ) : Except Unit PERState :=
  if idxs.length = ps.length then perUpdLoop alphaPow (idxs.zip ps) s
  else Except.error ()

/-! ### Segment-tree reductions over the leaf arrays -/

/-- Inclusive-exclusive prefix sum of the sum-tree leaves: `cumSum leaf k`
is the sum of leaves `[0, k)`.  `baselines`' `sum(start, end)` reduces
leaves `[start, end)` and `sum()` reduces all `capacity` leaves. -/
def cumSum (leaf : ℕ → ℚ) (k : ℕ) : ℚ :=
  ∑ j ∈ Finset.range k, leaf j

/-- `SumSegmentTree.sum()` with no arguments: total mass over all leaves. -/
def treeSum (s : PERState) : ℚ := cumSum s.sumLeaf perCapacity

/-- `MinSegmentTree.min()` with no arguments: minimum over all leaves
(unwritten leaves hold the neutral element `float('inf')`, i.e. `⊤`). -/
def treeMin (s : PERState) : WithTop ℚ :=
  (Finset.range perCapacity).inf s.minLeaf

/-- Linear search for the least index at or after `start` satisfying `p`,
with explicit fuel; returns `start + fuel` if none is found. -/
def findFrom (p : ℕ → Bool) : ℕ → ℕ → ℕ
  | 0, start => start
  | fuel + 1, start => if p start then start else findFrom p fuel (start + 1)

/-- `SumSegmentTree.find_prefixsum_idx m`: the least leaf index whose
inclusive prefix sum exceeds `m` (contract of the baselines tree descent,
valid for `0 ≤ m <` total mass — the only regime `sampleProportional`
invokes it in). -/
def findPrefixsumIdx (leaf : ℕ → ℚ) (m : ℚ) : ℕ :=
  findFrom (fun i => decide (m < cumSum leaf (i + 1))) perCapacity 0

/-- `PrioritizedReplayBuffer.sampleProportional`: partition
`sum(0, len - 1)` (= leaves `[0, len - 1)` under the baselines
end-exclusive convention) into `BATCH_SIZE` equal ranges and resolve one
uniform draw `u ∈ [0, 1)` per range through the prefix-sum search.  The
draws are the oracle argument `us` (`random.random()` per iteration). -/
def sampleProportional (s : PERState) (us : List ℚ) : List ℕ :=
  let probTotal := cumSum s.sumLeaf (s.memBuff.length - 1)
  let erl := probTotal / (BATCH_SIZE : ℚ)
  (us.zip (List.range BATCH_SIZE)).map
    (fun ui => findPrefixsumIdx s.sumLeaf (ui.1 * erl + (ui.2 : ℚ) * erl))

/-- Importance weight `memSample` computes for a single sampled index:
`(probSample * N) ** (-beta) / maxWeight` with
`probSample = sumTree[idx] / sumTree.sum()`.  (`negPow` stands for
`(·) ** (-beta)`.) -/
def perWeight (negPow : ℚ → ℚ) (s : PERState) (idx : ℕ) : ℚ :=
  let probMin := WithTop.untop' 0 (treeMin s) / treeSum s
  let maxWeight := negPow (probMin * (s.memBuff.length : ℚ))
  negPow (s.sumLeaf idx / treeSum s * (s.memBuff.length : ℚ)) / maxWeight

/-- `PrioritizedReplayBuffer.memSample(beta)` (weight/index part): sample
the indices proportionally and attach to each its normalized importance
weight; the encoded transition arrays (`encodedSample`) carry no extra
logic relevant to the weight claims and are omitted. -/
def perMemSample (negPow : ℚ → ℚ) (s : PERState) (us : List ℚ) :
    List ℚ × List ℕ :=
  let indexes := sampleProportional s us
  (indexes.map (perWeight negPow s), indexes)

/-! ### Polyak / soft update (ddqnAgent.py lines 187-195 and 394-402) -/

/-- `softUpdate` with an explicit rate: for each zipped parameter pair the
target entry becomes `tau * local + (1 - tau) * target`. -/
def softUpdateWith (tau : ℚ) (target local_ : List ℚ) : List ℚ :=
  List.zipWith (fun t l => tau * l + (1 - tau) * t) target local_

/-- `Agent.softUpdate` / `TD3Agent.softUpdate` as written: rate fixed to the
global `TAU`. -/
def softUpdate (target local_ : List ℚ) : List ℚ :=
  softUpdateWith TAU target local_

/-- `softUpdate` viewed as the state transformer on the pair
(target parameters, local parameters): only the target tensor is mutated
(`targetParams.data.copy_`), the local network is read-only. -/
def softUpdatePair (tau : ℚ) (target local_ : List ℚ) : List ℚ × List ℚ :=
  (softUpdateWith tau target local_, local_)

/-! ### TD3 action noise and Bellman target (ddqnAgent.py lines 337-349, 404-421) -/

/-- `TD3Agent.actionNoise` per component (`actionSize = 1` instance; the
tensor code applies exactly this to every component): scale a standard
normal draw `r` by `noiseRatio * actionRange`, clip the noise to
`[actionMin * noiseClipRatio, actionMax * noiseClipRatio]`
(`torch.max(torch.min(...))`), add it to the target actor's next action and
clip the result to the action bounds. -/
def actionNoise (noiseRatio noiseClipRatio actionMin actionMax : ℚ)
    (r nextAction : ℚ) : ℚ :=
  let actionRange := actionMax - actionMin
  let noise := max (min (r * noiseRatio * actionRange) (actionMax * noiseClipRatio))
                   (actionMin * noiseClipRatio)
  max (min (nextAction + noise) actionMax) actionMin

/-- The noised next actions `learn` computes: target-actor action per next
state, perturbed by `actionNoise` (one `randn` draw per batch element). -/
def learnNoisyActions (actorT : ℚ → ℚ) (noiseRatio noiseClipRatio actionMin actionMax : ℚ)
    (nextStates rs : List ℚ) : List ℚ :=
  List.zipWith (fun ns r => actionNoise noiseRatio noiseClipRatio actionMin actionMax
    r (actorT ns)) nextStates rs

/-- `TD3Agent.learn` Bellman targets:
`Q_Targets = rewards + GAMMA * min(Q_A, Q_B) * (1 - dones)` where the twin
target critics are evaluated on the noised next actions. -/
def learnQTargets (actorT : ℚ → ℚ) (criticTA criticTB : ℚ → ℚ → ℚ)
    (noiseRatio noiseClipRatio actionMin actionMax : ℚ)
    (nextStates rewards dones rs : List ℚ) : List ℚ :=
  let noisy := learnNoisyActions actorT noiseRatio noiseClipRatio actionMin actionMax
    nextStates rs
  let qA := List.zipWith criticTA nextStates noisy
  let qB := List.zipWith criticTB nextStates noisy
  let qMin := List.zipWith min qA qB
  List.zipWith (fun r qd => r + GAMMA * qd.1 * (1 - qd.2)) rewards (qMin.zip dones)

/-! ### TD3Agent step/learn cadence (ddqnAgent.py lines 282-297, 317-392)

For the cadence claims the four networks are opaque parameter vectors; the
gradient steps on the local networks are abstract functions of the agent
state (they depend on sampled batches and network internals, both external
to the claims).  The target updates are the concrete `softUpdate`. -/

structure TD3State where
  stepNum : ℕ
  memBuff : List Unit
  criticLocal : List ℚ
  criticTarget : List ℚ
  actorLocal : List ℚ
  actorTarget : List ℚ
deriving DecidableEq

/-- `TD3Agent.learn`: critic gradient step every call; actor gradient step
only when `stepNum % TRAIN_ACTOR_STEPS == 0`; each target Polyak-synced
only on its own `stepNum % UPDATE_*_TARGET_STEPS == 0` cadence. -/
def td3Learn (trainCritic trainActor : TD3State → List ℚ) (s : TD3State) : TD3State :=
  let s1 := { s with criticLocal := trainCritic s }
  let s2 := if s1.stepNum % TRAIN_ACTOR_STEPS = 0
            then { s1 with actorLocal := trainActor s1 } else s1
  let s3 := if s2.stepNum % UPDATE_CRITIC_TARGET_STEPS = 0
            then { s2 with criticTarget := softUpdate s2.criticTarget s2.criticLocal }
            else s2
  if s3.stepNum % UPDATE_ACTOR_TARGET_STEPS = 0
  then { s3 with actorTarget := softUpdate s3.actorTarget s3.actorLocal }
  else s3

/-- `TD3Agent.step`: store the transition, increment `stepNum`, and learn
when `stepNum % LEARN_EVERY == 0` and the buffer holds more than
`BATCH_SIZE` transitions. -/
def td3Step (trainCritic trainActor : TD3State → List ℚ) (s : TD3State) : TD3State :=
  let s1 := { s with memBuff := dequeAppend BUFFER_SIZE s.memBuff (),
                     stepNum := s.stepNum + 1 }
  if s1.stepNum % LEARN_EVERY = 0 ∧ BATCH_SIZE < s1.memBuff.length
  then td3Learn trainCritic trainActor s1
  else s1

/-- Iterated `step` calls. -/
def td3Run (trainCritic trainActor : TD3State → List ℚ) (s : TD3State) : ℕ → TD3State
  | 0 => s
  | n + 1 => td3Step trainCritic trainActor (td3Run trainCritic trainActor s n)

/-! ### OUNoise (ddqnAgent.py lines 423-455) -/

structure OUState where
  mu : ℚ
  theta : ℚ
  sigma : ℚ
  size : ℕ
  state : List ℚ
deriving DecidableEq

/-- `OUNoise.reset`: internal state becomes the mean vector `mu * ones(size)`. -/
def OUreset (s : OUState) : OUState :=
  { s with state := List.replicate s.size s.mu }

/-- `OUNoise.sample`: `dx = theta * (mu - x) + sigma * vec` with
`vec = np.array([random.random() for i in range(len(x))])` — the draws
(each uniform on `[0, 1)`) are the oracle argument; the state advances to
`x + dx`, which is also the returned sample. -/
def OUsample (s : OUState) (draws : List ℚ) : OUState :=
  { s with state :=
      List.zipWith (fun x d => x + (s.theta * (s.mu - x) + s.sigma * d)) s.state draws }

/-! ### NormalNoiseDecayStrategy (ddqnAgent.py lines 457-506) -/

structure NNDSState where
  step : ℕ
  low : ℚ
  high : ℚ
  initNoiseRatio : ℚ
  minNoiseRatio : ℚ
  decaySteps : ℕ
  ratioNoiseInjected : ℚ
  noiseRatio : Option ℚ
deriving DecidableEq

/-- `NormalNoiseDecayStrategy.__init__` with the default keyword arguments:
note that no `noiseRatio` attribute is created (`noiseRatio = none`). -/
def NNDSinit (low high : ℚ) : NNDSState where
  step := 0
  low := low
  high := high
  initNoiseRatio := 1 / 2
  minNoiseRatio := 1 / 10
  decaySteps := 10000
  ratioNoiseInjected := 0
  noiseRatio := none

/-- `noiseRatioUpdate`: linear decay scaled into
`[minNoiseRatio, initNoiseRatio]`, clipped (`np.clip`), incrementing `step`;
returns the new ratio together with the stepped state. -/
def noiseRatioUpdate (s : NNDSState) : ℚ × NNDSState :=
  let nr0 := 1 - (s.step : ℚ) / (s.decaySteps : ℚ)
  let nr1 := (s.initNoiseRatio - s.minNoiseRatio) * nr0 + s.minNoiseRatio
  let nr := min (max nr1 s.minNoiseRatio) s.initNoiseRatio
  (nr, { s with step := s.step + 1 })

/-- `selectAction` (scalar action instance).  The control flow mirrors the
source: the noise scale is computed FIRST — reading `self.noiseRatio`
whenever `maxExploration` is false, which raises `AttributeError`
(modelled as `Except.error`) if no prior call has created the attribute —
then the greedy branch may return early (without updating `noiseRatio`),
and only a completed non-greedy call stores a `noiseRatio`.
`greedyNet` is the actor network's output on the given state and
`noiseDraw` a standard normal draw (`np.random.normal` with scale `k`
modelled as `k * noiseDraw`). -/
def selectAction (greedyNet noiseDraw : ℚ) (s : NNDSState)
    (maxExploration chooseGreedyAction : Bool) : Except Unit (ℚ × NNDSState) :=
  match (if maxExploration then Except.ok s.high
         else match s.noiseRatio with
              | some r => Except.ok (r * s.high)
              | none => Except.error ()) with
  | Except.error e => Except.error e
  | Except.ok noiseScale =>
    if chooseGreedyAction then
      Except.ok (min (max greedyNet s.low) s.high, { s with ratioNoiseInjected := 0 })
    else
      let noisyAction := greedyNet + noiseDraw * noiseScale
      let action := min (max noisyAction s.low) s.high
      let upd := noiseRatioUpdate s
      Except.ok (action,
        { upd.2 with noiseRatio := some upd.1,
                     ratioNoiseInjected := |(greedyNet - action) / (s.high - s.low)| })

/-! ### Concrete inputs used by counterexamples and witnesses -/

/-- State after 100000 `addMem` calls on a fresh prioritized buffer
(transition labels 1..100000). -/
def c1s1 : PERState := perAddList id PERinit (List.range' 1 BUFFER_SIZE)

/-- ... then `updatePriorities([1], [2.0])` and one further `addMem`
(transition label 100001), which wraps the write slot to 0 while the deque
shifts every stored transition left by one. -/
def c1s3 : Except Unit PERState :=
  Except.map (fun s2 => perAddMem id s2 100001) (perUpdatePriorities id c1s1 [1] [2])

/-- Well-formed prioritized-buffer tree state, as every reachable state is:
the occupied slots `[0, n)` carry the (positive, by the claim's hypothesis)
priority masses `f` identically in both trees, all other leaves hold the
neutral elements. -/
def PERWellFormed (s : PERState) (f : ℕ → ℚ) (n : ℕ) : Prop :=
  s.memBuff.length = n ∧ 0 < n ∧ n ≤ BUFFER_SIZE ∧
  s.sumLeaf = (fun j => if j < n then f j else 0) ∧
  s.minLeaf = (fun j => if j < n then ((f j : ℚ) : WithTop ℚ) else ⊤) ∧
  (∀ j, j < n → 0 < f j)

/-- Concrete batch of 100001 transitions fed to the plain replay buffer in
the witness for the ring-eviction claim. -/
def c4Input : List Experience :=
  (List.range 100001).map (fun (i : ℕ) => ⟨(i : ℚ), 0, 0, 0, 0⟩)

/-- A TD3 agent mid-training: fresh step counter, replay buffer already
holding 10 transitions (so every fourth step triggers `learn`), and
distinguishable local/target parameter vectors. -/
def c7s0 : TD3State where
  stepNum := 0
  memBuff := List.replicate 10 ()
  criticLocal := [1]
  criticTarget := [0]
  actorLocal := [1]
  actorTarget := [0]

/-- Abstract critic gradient step used in the cadence run: any update that
visibly changes the local critic. -/
def c7trainCritic : TD3State → List ℚ := fun _ => [5]

/-- Abstract actor gradient step used in the cadence run. -/
def c7trainActor : TD3State → List ℚ := fun _ => [7]

/-- A one-slot prioritized buffer (one stored transition of priority mass 1)
used by the importance-weight witness. -/
def c2s : PERState where
  memBuff := [5]
  sumLeaf := fun j => if j < 1 then 1 else 0
  minLeaf := fun j => if j < 1 then ((1 : ℚ) : WithTop ℚ) else ⊤
  maxPriority := 1
  nextIdx := 1
  prio := fun _ => 1

/-- A one-slot prioritized buffer used by the priority-update witness. -/
def c3s : PERState where
  memBuff := [7]
  sumLeaf := fun _ => 1
  minLeaf := fun _ => ((1 : ℚ) : WithTop ℚ)
  maxPriority := 1
  nextIdx := 1
  prio := fun _ => 1

/-- Its state after `updatePriorities([0], [2.0])`. -/
def c3t : PERState := perUpdStep id c3s (0, 2)

/-- An OU-noise process with the paper defaults
(`mu = 0`, `theta = 0.15`, `sigma = 0.2`) over two components, after a
`reset()`. -/
def c9OU : OUState where
  mu := 0
  theta := 3 / 20
  sigma := 1 / 5
  size := 2
  state := [0, 0]

/-- The value `selectAction(maxExploration = True, chooseGreedyAction =
False)` returns on a fresh strategy with bounds `[-1, 1]`, network output
`1` and standard-normal draw `1/2`: the clipped action together with the
stepped state now carrying `noiseRatio = 1/2`. -/
def c10out : ℚ × NNDSState :=
  (1, { step := 1
        low := -1
        high := 1
        initNoiseRatio := 1 / 2
        minNoiseRatio := 1 / 10
        decaySteps := 10000
        ratioNoiseInjected := 0
        noiseRatio := some (1 / 2) })

/-! ## Theorems -/

/-! ### Deque (ring) behaviour -/

theorem dequeAppend_eq_drop (cap : ℕ) (l : List α) (x : α) :
    dequeAppend cap l x = (l ++ [x]).drop (l.length + 1 - cap) := by
  unfold dequeAppend
  split
  · have h : l.length + 1 - cap = 0 := by omega
    rw [h, List.drop_zero]
  · rfl

theorem foldl_dequeAppend (cap : ℕ) (es : List α) :
    es.foldl (dequeAppend cap) [] = es.drop (es.length - cap) := by
  induction es using List.reverseRecOn with
  | nil => simp
  | append_singleton l x ih =>
      have hk : l.length - cap ≤ l.length := Nat.sub_le _ _
      rw [List.foldl_append, List.foldl_cons, List.foldl_nil, ih, dequeAppend_eq_drop,
        ← List.drop_append_of_le_length hk, List.drop_drop]
      have h1 : l.length - cap + ((l.drop (l.length - cap)).length + 1 - cap)
          = (l ++ [x]).length - cap := by
        simp only [List.length_drop, List.length_append, List.length_cons, List.length_nil]
        omega
      rw [h1]

/-- C4: for every sequence of `ReplayBuffer.addMem` calls the buffer length
never exceeds `BUFFER_SIZE`, and once more than `BUFFER_SIZE` transitions
have been inserted the buffer holds exactly the most recent `BUFFER_SIZE`
of them, in insertion order (ring eviction of the oldest entry). -/
theorem replayBuffer_ring_eviction (es : List Experience) :
    (es.foldl (fun b e => ReplayBuffer.addMem b e.state e.action e.reward e.nextState e.done)
      []).length ≤ BUFFER_SIZE ∧
    (BUFFER_SIZE < es.length →
      es.foldl (fun b e => ReplayBuffer.addMem b e.state e.action e.reward e.nextState e.done) []
        = es.drop (es.length - BUFFER_SIZE)) := by
  have hfun : (fun (b : List Experience) (e : Experience) =>
      ReplayBuffer.addMem b e.state e.action e.reward e.nextState e.done)
      = dequeAppend BUFFER_SIZE := by
    funext b e
    rfl
  rw [hfun, foldl_dequeAppend]
  constructor
  · simp only [List.length_drop]
    omega
  · intro _
    rfl

theorem replayBuffer_ring_eviction_witness :
    BUFFER_SIZE < c4Input.length ∧
    (c4Input.foldl (fun b e => ReplayBuffer.addMem b e.state e.action e.reward e.nextState e.done)
      []).length ≤ BUFFER_SIZE ∧
    c4Input.foldl (fun b e => ReplayBuffer.addMem b e.state e.action e.reward e.nextState e.done) []
      = c4Input.drop (c4Input.length - BUFFER_SIZE) := by
  have hlen : c4Input.length = 100001 := by
    unfold c4Input
    rw [List.length_map, List.length_range]
  have h : BUFFER_SIZE < c4Input.length := by
    rw [hlen]
    norm_num [BUFFER_SIZE]
  exact ⟨h, (replayBuffer_ring_eviction c4Input).1, (replayBuffer_ring_eviction c4Input).2 h⟩

/-! ### Elementwise access through zips -/

theorem zipWith_getD {α β γ : Type} (f : α → β → γ) (da : α) (db : β) (dc : γ) :
    ∀ (as : List α) (bs : List β) (i : ℕ), i < as.length → i < bs.length →
      (List.zipWith f as bs).getD i dc = f (as.getD i da) (bs.getD i db) := by
  intro as
  induction as with
  | nil =>
      intro bs i h1 _
      simp at h1
  | cons a as ih =>
      intro bs i h1 h2
      cases bs with
      | nil => simp at h2
      | cons b bs =>
          cases i with
          | zero => simp
          | succ n =>
              rw [List.zipWith_cons_cons, List.getD_cons_succ, List.getD_cons_succ,
                List.getD_cons_succ]
              exact ih bs n (by simpa using h1) (by simpa using h2)

theorem zip_getD {α β : Type} (da : α) (db : β) (as : List α) (bs : List β) (i : ℕ)
    (h1 : i < as.length) (h2 : i < bs.length) :
    (as.zip bs).getD i (da, db) = (as.getD i da, bs.getD i db) := by
  rw [List.zip_eq_zipWith]
  exact zipWith_getD Prod.mk da db (da, db) as bs i h1 h2

/-! ### Polyak soft update (C8) -/

theorem softUpdateWith_zero (target local_ : List ℚ) (hlen : target.length = local_.length) :
    softUpdateWith 0 target local_ = target := by
  unfold softUpdateWith
  induction target generalizing local_ with
  | nil => simp
  | cons t ts ih =>
      cases local_ with
      | nil => simp at hlen
      | cons l ls =>
          rw [List.zipWith_cons_cons, ih ls (by simpa using hlen)]
          norm_num

theorem softUpdateWith_one (target local_ : List ℚ) (hlen : target.length = local_.length) :
    softUpdateWith 1 target local_ = local_ := by
  unfold softUpdateWith
  induction target generalizing local_ with
  | nil =>
      cases local_ with
      | nil => rfl
      | cons l ls => simp at hlen
  | cons t ts ih =>
      cases local_ with
      | nil => simp at hlen
      | cons l ls =>
          rw [List.zipWith_cons_cons, ih ls (by simpa using hlen)]
          norm_num

/-- C8: the soft update writes `tau * local + (1 - tau) * target` into every
target entry (elementwise over the zipped parameter tensors) while leaving
the local parameters untouched; at rate `0` the target is unchanged, at
rate `1` it becomes an exact copy of the local parameters.  The code's
`softUpdate` is the instance `tau = TAU`. -/
theorem softUpdate_polyak (tau : ℚ) (target local_ : List ℚ)
    (hlen : target.length = local_.length) :
    (∀ i, i < target.length →
      (softUpdateWith tau target local_).getD i 0
        = tau * local_.getD i 0 + (1 - tau) * target.getD i 0) ∧
    (softUpdatePair tau target local_).2 = local_ ∧
    softUpdate target local_ = softUpdateWith TAU target local_ ∧
    softUpdateWith 0 target local_ = target ∧
    softUpdateWith 1 target local_ = local_ := by
  refine ⟨?_, rfl, rfl, softUpdateWith_zero target local_ hlen,
    softUpdateWith_one target local_ hlen⟩
  intro i hi
  exact zipWith_getD _ 0 0 0 target local_ i hi (hlen ▸ hi)

theorem softUpdate_polyak_witness :
    ([(2 : ℚ)].length = [(3 : ℚ)].length) ∧
    ((∀ i, i < [(2 : ℚ)].length →
      (softUpdateWith (1 / 2) [(2 : ℚ)] [(3 : ℚ)]).getD i 0
        = 1 / 2 * ([(3 : ℚ)].getD i 0) + (1 - 1 / 2) * ([(2 : ℚ)].getD i 0)) ∧
    (softUpdatePair (1 / 2) [(2 : ℚ)] [(3 : ℚ)]).2 = [(3 : ℚ)] ∧
    softUpdate [(2 : ℚ)] [(3 : ℚ)] = softUpdateWith TAU [(2 : ℚ)] [(3 : ℚ)] ∧
    softUpdateWith 0 [(2 : ℚ)] [(3 : ℚ)] = [(2 : ℚ)] ∧
    softUpdateWith 1 [(2 : ℚ)] [(3 : ℚ)] = [(3 : ℚ)]) :=
  ⟨rfl, softUpdate_polyak (1 / 2) [(2 : ℚ)] [(3 : ℚ)] rfl⟩

/-! ### Uniform replay sampling (C5) -/

/-- C5: `memSample` fails exactly when the buffer holds fewer than
`BATCH_SIZE` transitions — this half holds for every buffer and every
oracle draw, in particular in the failure regime itself; on success, for
any position list the `random.sample` oracle may legally return
(`BATCH_SIZE` pairwise-distinct in-range positions), the call yields five
parallel arrays whose `r`-th entries all come from the single stored
transition at the `r`-th drawn position, drawn without replacement, and
the buffer itself is returned unchanged. -/
theorem memSample_uniform_spec (buf : List Experience) (sel : List ℕ) :
    ((ReplayBuffer.memSample buf sel = Except.error ()) ↔ buf.length < BATCH_SIZE) ∧
    (∀ out, ReplayBuffer.memSample buf sel = Except.ok out →
      sel.length = BATCH_SIZE → sel.Nodup → (∀ i ∈ sel, i < buf.length) →
      out.2 = buf ∧
      ∃ js : List ℕ, js.Nodup ∧ js.length = BATCH_SIZE ∧ (∀ j ∈ js, j < buf.length) ∧
        out.1.1 = js.map (fun j => (buf.getD j default).state) ∧
        out.1.2.1 = js.map (fun j => (buf.getD j default).action) ∧
        out.1.2.2.1 = js.map (fun j => (buf.getD j default).reward) ∧
        out.1.2.2.2.1 = js.map (fun j => (buf.getD j default).nextState) ∧
        out.1.2.2.2.2 = js.map (fun j => (buf.getD j default).done)) := by
  unfold ReplayBuffer.memSample
  by_cases h : buf.length < BATCH_SIZE
  · rw [if_pos h]
    refine ⟨⟨fun _ => h, fun _ => rfl⟩, ?_⟩
    intro out hout
    exact absurd hout (by simp)
  · rw [if_neg h]
    refine ⟨⟨fun he => absurd he (by simp), fun hlt => absurd hlt h⟩, ?_⟩
    intro out hout hsel hnodup hmem
    rw [Except.ok.injEq] at hout
    subst hout
    refine ⟨rfl, sel, hnodup, hsel, hmem, ?_, ?_, ?_, ?_, ?_⟩ <;>
      simp [List.map_map, Function.comp]

/-- Concrete buffer and drawn positions for the C5 witness. -/
def c5Buf : List Experience :=
  [⟨1, 0, 0, 0, 0⟩, ⟨2, 0, 0, 0, 0⟩, ⟨3, 0, 0, 0, 0⟩, ⟨4, 0, 0, 0, 0⟩, ⟨5, 0, 0, 0, 0⟩]

theorem memSample_uniform_spec_witness :
    ((ReplayBuffer.memSample c5Buf [3, 1, 0, 4] = Except.error ()) ↔
      c5Buf.length < BATCH_SIZE) ∧
    (∀ out, ReplayBuffer.memSample c5Buf [3, 1, 0, 4] = Except.ok out →
      out.2 = c5Buf ∧
      ∃ js : List ℕ, js.Nodup ∧ js.length = BATCH_SIZE ∧ (∀ j ∈ js, j < c5Buf.length) ∧
        out.1.1 = js.map (fun j => (c5Buf.getD j default).state) ∧
        out.1.2.1 = js.map (fun j => (c5Buf.getD j default).action) ∧
        out.1.2.2.1 = js.map (fun j => (c5Buf.getD j default).reward) ∧
        out.1.2.2.2.1 = js.map (fun j => (c5Buf.getD j default).nextState) ∧
        out.1.2.2.2.2 = js.map (fun j => (c5Buf.getD j default).done)) := by
  obtain ⟨h1, h2⟩ := memSample_uniform_spec c5Buf [3, 1, 0, 4]
  exact ⟨h1, fun out hout => h2 out hout (by decide) (by decide) (by decide)⟩

/-! ### TD3 Bellman target with twin critics (C6) -/

/-- C6: every Bellman target equals
`reward + GAMMA * min(Q_A, Q_B) * (1 - done)`, where `Q_A`/`Q_B` are the
twin target critics evaluated on the target actor's next action perturbed
by noise of magnitude `noiseRatio * actionRange` clipped to
`[actionMin * noiseClipRatio, actionMax * noiseClipRatio]`, the noised
action being clipped to the action bounds; when `Q_A > Q_B` on every batch
element the targets coincide with the ones computed from `Q_B` alone. -/
theorem td3_min_twin_target (actorT : ℚ → ℚ) (criticTA criticTB : ℚ → ℚ → ℚ)
    (nr ncr amin amax : ℚ) (nextStates rewards dones rs : List ℚ)
    (hr : rewards.length = nextStates.length)
    (hd : dones.length = nextStates.length)
    (hs : rs.length = nextStates.length) :
    (∀ r a, actionNoise nr ncr amin amax r a
      = max (min (a + max (min (r * nr * (amax - amin)) (amax * ncr)) (amin * ncr)) amax)
          amin) ∧
    (∀ i, i < nextStates.length →
      (learnQTargets actorT criticTA criticTB nr ncr amin amax
          nextStates rewards dones rs).getD i 0
        = rewards.getD i 0
          + GAMMA * min
              (criticTA (nextStates.getD i 0)
                ((learnNoisyActions actorT nr ncr amin amax nextStates rs).getD i 0))
              (criticTB (nextStates.getD i 0)
                ((learnNoisyActions actorT nr ncr amin amax nextStates rs).getD i 0))
            * (1 - dones.getD i 0)) ∧
    ((∀ i, i < nextStates.length →
        criticTB (nextStates.getD i 0)
            ((learnNoisyActions actorT nr ncr amin amax nextStates rs).getD i 0)
          < criticTA (nextStates.getD i 0)
              ((learnNoisyActions actorT nr ncr amin amax nextStates rs).getD i 0)) →
      ∀ i, i < nextStates.length →
        (learnQTargets actorT criticTA criticTB nr ncr amin amax
            nextStates rewards dones rs).getD i 0
          = rewards.getD i 0
            + GAMMA * criticTB (nextStates.getD i 0)
                ((learnNoisyActions actorT nr ncr amin amax nextStates rs).getD i 0)
              * (1 - dones.getD i 0)) := by
  have hlnlen : (learnNoisyActions actorT nr ncr amin amax nextStates rs).length
      = nextStates.length := by
    unfold learnNoisyActions
    rw [List.length_zipWith, hs]
    exact min_self _
  have hqAlen : (List.zipWith criticTA nextStates
      (learnNoisyActions actorT nr ncr amin amax nextStates rs)).length
      = nextStates.length := by
    rw [List.length_zipWith, hlnlen]
    exact min_self _
  have hqBlen : (List.zipWith criticTB nextStates
      (learnNoisyActions actorT nr ncr amin amax nextStates rs)).length
      = nextStates.length := by
    rw [List.length_zipWith, hlnlen]
    exact min_self _
  have hqMlen : (List.zipWith min
      (List.zipWith criticTA nextStates
        (learnNoisyActions actorT nr ncr amin amax nextStates rs))
      (List.zipWith criticTB nextStates
        (learnNoisyActions actorT nr ncr amin amax nextStates rs))).length
      = nextStates.length := by
    rw [List.length_zipWith, hqAlen, hqBlen]
    exact min_self _
  have key : ∀ i, i < nextStates.length →
      (learnQTargets actorT criticTA criticTB nr ncr amin amax
          nextStates rewards dones rs).getD i 0
        = rewards.getD i 0
          + GAMMA * min
              (criticTA (nextStates.getD i 0)
                ((learnNoisyActions actorT nr ncr amin amax nextStates rs).getD i 0))
              (criticTB (nextStates.getD i 0)
                ((learnNoisyActions actorT nr ncr amin amax nextStates rs).getD i 0))
            * (1 - dones.getD i 0) := by
    intro i hi
    have h1 : i < rewards.length := hr ▸ hi
    have h2 : i < dones.length := hd ▸ hi
    have hln : i < (learnNoisyActions actorT nr ncr amin amax nextStates rs).length :=
      hlnlen ▸ hi
    have e1 := zipWith_getD criticTA 0 0 0 nextStates
      (learnNoisyActions actorT nr ncr amin amax nextStates rs) i hi hln
    have e2 := zipWith_getD criticTB 0 0 0 nextStates
      (learnNoisyActions actorT nr ncr amin amax nextStates rs) i hi hln
    have e3 := zipWith_getD min 0 0 0
      (List.zipWith criticTA nextStates
        (learnNoisyActions actorT nr ncr amin amax nextStates rs))
      (List.zipWith criticTB nextStates
        (learnNoisyActions actorT nr ncr amin amax nextStates rs))
      i (hqAlen ▸ hi) (hqBlen ▸ hi)
    have e4 := zip_getD (0 : ℚ) (0 : ℚ)
      (List.zipWith min
        (List.zipWith criticTA nextStates
          (learnNoisyActions actorT nr ncr amin amax nextStates rs))
        (List.zipWith criticTB nextStates
          (learnNoisyActions actorT nr ncr amin amax nextStates rs)))
      dones i (hqMlen ▸ hi) h2
    have e5 := zipWith_getD (fun (r : ℚ) (qd : ℚ × ℚ) => r + GAMMA * qd.1 * (1 - qd.2))
      0 ((0 : ℚ), (0 : ℚ)) 0 rewards
      ((List.zipWith min
        (List.zipWith criticTA nextStates
          (learnNoisyActions actorT nr ncr amin amax nextStates rs))
        (List.zipWith criticTB nextStates
          (learnNoisyActions actorT nr ncr amin amax nextStates rs))).zip dones)
      i h1 (by rw [List.length_zip, hqMlen, hd]; exact hi.trans_le (le_of_eq (min_self _).symm))
    unfold learnQTargets
    rw [e5, e4, e3, e1, e2]
  refine ⟨fun r a => rfl, key, fun hAB i hi => ?_⟩
  rw [key i hi, min_eq_right (le_of_lt (hAB i hi))]

theorem td3_min_twin_target_witness :
    ([(1 : ℚ)].length = [(0 : ℚ)].length) ∧ ([(0 : ℚ)].length = [(0 : ℚ)].length) ∧
    ([(0 : ℚ)].length = [(0 : ℚ)].length) ∧
    ((∀ r a, actionNoise (1 / 10) (1 / 2) (-1) 1 r a
      = max (min (a + max (min (r * (1 / 10) * (1 - -1)) (1 * (1 / 2))) (-1 * (1 / 2))) 1)
          (-1)) ∧
    (∀ i, i < [(0 : ℚ)].length →
      (learnQTargets (fun s => s) (fun s a => s + a + 1) (fun s a => s + a)
          (1 / 10) (1 / 2) (-1) 1 [(0 : ℚ)] [(1 : ℚ)] [(0 : ℚ)] [(0 : ℚ)]).getD i 0
        = [(1 : ℚ)].getD i 0
          + GAMMA * min
              ((fun (s a : ℚ) => s + a + 1) ([(0 : ℚ)].getD i 0)
                ((learnNoisyActions (fun s => s) (1 / 10) (1 / 2) (-1) 1
                  [(0 : ℚ)] [(0 : ℚ)]).getD i 0))
              ((fun (s a : ℚ) => s + a) ([(0 : ℚ)].getD i 0)
                ((learnNoisyActions (fun s => s) (1 / 10) (1 / 2) (-1) 1
                  [(0 : ℚ)] [(0 : ℚ)]).getD i 0))
            * (1 - [(0 : ℚ)].getD i 0)) ∧
    ((∀ i, i < [(0 : ℚ)].length →
        (fun (s a : ℚ) => s + a) ([(0 : ℚ)].getD i 0)
            ((learnNoisyActions (fun s => s) (1 / 10) (1 / 2) (-1) 1
              [(0 : ℚ)] [(0 : ℚ)]).getD i 0)
          < (fun (s a : ℚ) => s + a + 1) ([(0 : ℚ)].getD i 0)
              ((learnNoisyActions (fun s => s) (1 / 10) (1 / 2) (-1) 1
                [(0 : ℚ)] [(0 : ℚ)]).getD i 0)) →
      ∀ i, i < [(0 : ℚ)].length →
        (learnQTargets (fun s => s) (fun s a => s + a + 1) (fun s a => s + a)
            (1 / 10) (1 / 2) (-1) 1 [(0 : ℚ)] [(1 : ℚ)] [(0 : ℚ)] [(0 : ℚ)]).getD i 0
          = [(1 : ℚ)].getD i 0
            + GAMMA * (fun (s a : ℚ) => s + a) ([(0 : ℚ)].getD i 0)
                ((learnNoisyActions (fun s => s) (1 / 10) (1 / 2) (-1) 1
                  [(0 : ℚ)] [(0 : ℚ)]).getD i 0)
              * (1 - [(0 : ℚ)].getD i 0))) :=
  ⟨rfl, rfl, rfl,
    td3_min_twin_target (fun s => s) (fun s a => s + a + 1) (fun s a => s + a)
      (1 / 10) (1 / 2) (-1) 1 [(0 : ℚ)] [(1 : ℚ)] [(0 : ℚ)] [(0 : ℚ)] rfl rfl rfl⟩

/-! ### TD3 update cadence (C7) -/

/-- C7 counterexample: in a run where learning is active (the local critic
has already been trained at step 4), the target critic parameters are
STILL unchanged after step 5 — because `learn` itself only runs when
`stepNum % LEARN_EVERY(=4) == 0`, so the `stepNum % 5 == 0` target-sync
gate can never fire on step 5.  This falsifies "target critic parameters
... differ on step 5". -/
theorem td3_step5_no_sync :
    (td3Run c7trainCritic c7trainActor c7s0 4).criticLocal = [5] ∧
    (td3Run c7trainCritic c7trainActor c7s0 5).criticTarget
      = (td3Run c7trainCritic c7trainActor c7s0 4).criticTarget ∧
    (td3Run c7trainCritic c7trainActor c7s0 5).criticTarget = [0] := by
  refine ⟨?_, ?_, ?_⟩ <;> decide

/-- C7 (amended): on any step whose incremented step count is not a
multiple of `20 = lcm(LEARN_EVERY, UPDATE_CRITIC_TARGET_STEPS)
= lcm(LEARN_EVERY, UPDATE_ACTOR_TARGET_STEPS)
= lcm(LEARN_EVERY, TRAIN_ACTOR_STEPS)`, the target critic, the target
actor and the local actor parameters are all bit-identical to their
previous values, whatever the (abstract) gradient steps do. -/
theorem td3_target_cadence (trainCritic trainActor : TD3State → List ℚ) (s : TD3State)
    (h : (s.stepNum + 1) % 20 ≠ 0) :
    (td3Step trainCritic trainActor s).criticTarget = s.criticTarget ∧
    (td3Step trainCritic trainActor s).actorTarget = s.actorTarget ∧
    (td3Step trainCritic trainActor s).actorLocal = s.actorLocal := by
  unfold td3Step td3Learn
  by_cases h4 : (s.stepNum + 1) % LEARN_EVERY = 0 ∧
      BATCH_SIZE < (dequeAppend BUFFER_SIZE s.memBuff ()).length
  · have h4' : (s.stepNum + 1) % 4 = 0 := h4.1
    have h5 : ¬ (s.stepNum + 1) % 5 = 0 := by
      intro h5
      exact h (by omega)
    rw [if_pos h4]
    simp only [TRAIN_ACTOR_STEPS, UPDATE_CRITIC_TARGET_STEPS, UPDATE_ACTOR_TARGET_STEPS]
    rw [if_neg h5, if_neg h5, if_neg h5]
    exact ⟨rfl, rfl, rfl⟩
  · rw [if_neg h4]
    exact ⟨rfl, rfl, rfl⟩

theorem td3_target_cadence_witness :
    ((c7s0.stepNum + 1) % 20 ≠ 0) ∧
    ((td3Step c7trainCritic c7trainActor c7s0).criticTarget = c7s0.criticTarget ∧
    (td3Step c7trainCritic c7trainActor c7s0).actorTarget = c7s0.actorTarget ∧
    (td3Step c7trainCritic c7trainActor c7s0).actorLocal = c7s0.actorLocal) :=
  ⟨by decide, td3_target_cadence c7trainCritic c7trainActor c7s0 (by decide)⟩

/-! ### OU noise process (C9) -/

/-- C9: `reset()` does set the state to the mean vector, and `sample()`
does advance it by `dx = theta * (mu - state) + noiseTerm` — but the noise
term is `sigma * u` with `u` drawn by `random.random()`, i.e. uniform on
`[0, 1)`: with the default `sigma = 0.2 = 1/5` every admissible draw makes
the stochastic increment land in `[0, 1/5)`, so it is never negative — a
zero-mean Gaussian noise term, as the spec describes, would be negative
half the time. -/
theorem ouNoise_uniform_not_gaussian (s : OUState) (draws : List ℚ)
    (hsig : s.sigma = 1 / 5)
    (hd : ∀ d ∈ draws, 0 ≤ d ∧ d < 1) :
    (OUreset s).state = List.replicate s.size s.mu ∧
    ∀ i, i < s.state.length → i < draws.length →
      ((OUsample s draws).state.getD i 0
        = s.state.getD i 0
          + (s.theta * (s.mu - s.state.getD i 0) + s.sigma * draws.getD i 0)) ∧
      0 ≤ (OUsample s draws).state.getD i 0
          - (s.state.getD i 0 + s.theta * (s.mu - s.state.getD i 0)) ∧
      (OUsample s draws).state.getD i 0
          - (s.state.getD i 0 + s.theta * (s.mu - s.state.getD i 0)) < 1 / 5 := by
  refine ⟨rfl, ?_⟩
  intro i h1 h2
  have e : (OUsample s draws).state.getD i 0
      = s.state.getD i 0
        + (s.theta * (s.mu - s.state.getD i 0) + s.sigma * draws.getD i 0) :=
    zipWith_getD (fun x d => x + (s.theta * (s.mu - x) + s.sigma * d)) 0 0 0
      s.state draws i h1 h2
  have hmem : draws.getD i 0 ∈ draws := by
    rw [List.getD_eq_getElem draws 0 h2]
    exact List.getElem_mem h2
  obtain ⟨hd0, hd1⟩ := hd _ hmem
  refine ⟨e, ?_, ?_⟩
  · rw [e, hsig]
    linarith
  · rw [e, hsig]
    linarith

theorem ouNoise_uniform_not_gaussian_witness :
    (c9OU.sigma = 1 / 5) ∧ (∀ d ∈ ([1 / 2, 0] : List ℚ), 0 ≤ d ∧ d < 1) ∧
    ((OUreset c9OU).state = List.replicate c9OU.size c9OU.mu ∧
    ∀ i, i < c9OU.state.length → i < ([1 / 2, 0] : List ℚ).length →
      ((OUsample c9OU [1 / 2, 0]).state.getD i 0
        = c9OU.state.getD i 0
          + (c9OU.theta * (c9OU.mu - c9OU.state.getD i 0)
            + c9OU.sigma * ([1 / 2, 0] : List ℚ).getD i 0)) ∧
      0 ≤ (OUsample c9OU [1 / 2, 0]).state.getD i 0
          - (c9OU.state.getD i 0 + c9OU.theta * (c9OU.mu - c9OU.state.getD i 0)) ∧
      (OUsample c9OU [1 / 2, 0]).state.getD i 0
          - (c9OU.state.getD i 0 + c9OU.theta * (c9OU.mu - c9OU.state.getD i 0)) < 1 / 5) :=
  ⟨rfl, by intro d hd; fin_cases hd <;> norm_num,
    ouNoise_uniform_not_gaussian c9OU [1 / 2, 0] rfl
      (by intro d hd; fin_cases hd <;> norm_num)⟩

/-! ### NormalNoiseDecayStrategy and the missing noiseRatio attribute (C10) -/

/-- C10 counterexample: on a freshly constructed strategy, a call with
`maxExploration = False` and `chooseGreedyAction = True` ALSO fails with
the missing-attribute error, because the noise scale (which reads
`self.noiseRatio`) is computed before the greedy early-return.  This
falsifies "calls with ... chooseGreedyAction = True never need noiseRatio
and always succeed". -/
theorem selectAction_greedy_crash :
    selectAction 0 0 (NNDSinit (-1) 1) false true = Except.error () := rfl

/-- C10 (amended): a fresh strategy has no `noiseRatio`; a call with
`maxExploration = False` (greedy or not) fails exactly when `noiseRatio`
is absent; calls with `maxExploration = True` always succeed; a completed
non-greedy call stores a `noiseRatio`, and a completed greedy call leaves
it unchanged (in particular it never creates it). -/
theorem selectAction_noiseRatio_spec :
    (∀ low high, (NNDSinit low high).noiseRatio = none) ∧
    (∀ g d (s : NNDSState) greedy,
      (selectAction g d s false greedy = Except.error ()) ↔ s.noiseRatio = none) ∧
    (∀ g d (s : NNDSState) greedy, ∃ out, selectAction g d s true greedy = Except.ok out) ∧
    (∀ g d (s : NNDSState) maxE out, selectAction g d s maxE false = Except.ok out →
      out.2.noiseRatio = some (noiseRatioUpdate s).1) ∧
    (∀ g d (s : NNDSState) maxE out, selectAction g d s maxE true = Except.ok out →
      out.2.noiseRatio = s.noiseRatio) := by
  refine ⟨fun low high => rfl, ?_, ?_, ?_, ?_⟩
  · intro g d s greedy
    cases hnr : s.noiseRatio with
    | none => cases greedy <;> simp [selectAction, hnr]
    | some r => cases greedy <;> simp [selectAction, hnr]
  · intro g d s greedy
    cases greedy <;> exact ⟨_, rfl⟩
  · intro g d s maxE out h
    cases maxE with
    | false =>
        cases hnr : s.noiseRatio with
        | none => simp [selectAction, hnr] at h
        | some r =>
            simp [selectAction, hnr] at h
            rw [← h]
    | true =>
        simp [selectAction] at h
        rw [← h]
  · intro g d s maxE out h
    cases maxE with
    | false =>
        cases hnr : s.noiseRatio with
        | none => simp [selectAction, hnr] at h
        | some r =>
            simp [selectAction, hnr] at h
            rw [← h]
    | true =>
        simp [selectAction] at h
        rw [← h]

theorem selectAction_noiseRatio_spec_witness :
    (selectAction 1 (1 / 2) (NNDSinit (-1) 1) true false = Except.ok c10out) ∧
    c10out.2.noiseRatio = some (noiseRatioUpdate (NNDSinit (-1) 1)).1 :=
  ⟨by norm_num [selectAction, NNDSinit, noiseRatioUpdate, c10out],
    selectAction_noiseRatio_spec.2.2.2.1 1 (1 / 2) (NNDSinit (-1) 1) true c10out
      (by norm_num [selectAction, NNDSinit, noiseRatioUpdate, c10out])⟩

/-! ### Priority updates (C3) -/

theorem perUpdLoop_spec (alphaPow : ℚ → ℚ) :
    ∀ (l : List (ℕ × ℚ)) (s : PERState),
      ((perUpdLoop alphaPow l s = Except.error ()) ↔
        ¬ ∀ pr ∈ l, 0 < pr.2 ∧ pr.1 < s.memBuff.length) ∧
      (∀ t, perUpdLoop alphaPow l s = Except.ok t →
        t.memBuff = s.memBuff ∧
        t.maxPriority = l.foldl (fun m pr => max m pr.2) s.maxPriority ∧
        (∀ j, (∀ pr ∈ l, pr.1 ≠ j) →
          t.sumLeaf j = s.sumLeaf j ∧ t.minLeaf j = s.minLeaf j) ∧
        ((l.map Prod.fst).Nodup → ∀ pr ∈ l,
          t.sumLeaf pr.1 = alphaPow pr.2 ∧
          t.minLeaf pr.1 = ((alphaPow pr.2 : ℚ) : WithTop ℚ))) := by
  intro l
  induction l with
  | nil =>
      intro s
      constructor
      · simp [perUpdLoop]
      · intro t ht
        simp only [perUpdLoop] at ht
        rw [Except.ok.injEq] at ht
        subst ht
        exact ⟨rfl, rfl, fun j _ => ⟨rfl, rfl⟩,
          fun _ pr hpr => absurd hpr (List.not_mem_nil pr)⟩
  | cons pr rest ih =>
      intro s
      by_cases hc : 0 < pr.2 ∧ pr.1 < s.memBuff.length
      · obtain ⟨ih1, ih2⟩ := ih (perUpdStep alphaPow s pr)
        constructor
        · rw [perUpdLoop, if_pos hc, ih1]
          constructor
          · intro hn hall
            exact hn (fun q hq => hall q (List.mem_cons_of_mem pr hq))
          · intro hn hall
            apply hn
            intro q hq
            rcases List.mem_cons.mp hq with rfl | hq'
            · exact hc
            · exact hall q hq'
        · intro t ht
          rw [perUpdLoop, if_pos hc] at ht
          obtain ⟨e1, e2, e3, e4⟩ := ih2 t ht
          refine ⟨e1, ?_, ?_, ?_⟩
          · rw [List.foldl_cons]
            exact e2
          · intro j hj
            have hpr : pr.1 ≠ j := hj pr (List.mem_cons_self pr rest)
            have hrest : ∀ q ∈ rest, q.1 ≠ j :=
              fun q hq => hj q (List.mem_cons_of_mem pr hq)
            obtain ⟨u1, u2⟩ := e3 j hrest
            exact ⟨u1.trans (Function.update_noteq (Ne.symm hpr) _ _),
              u2.trans (Function.update_noteq (Ne.symm hpr) _ _)⟩
          · intro hnd q hq
            rw [List.map_cons, List.nodup_cons] at hnd
            obtain ⟨hnotmem, hnd'⟩ := hnd
            rcases List.mem_cons.mp hq with rfl | hq'
            · have hne : ∀ q' ∈ rest, q'.1 ≠ q.1 := by
                intro q' hq' heq
                exact hnotmem (heq ▸ List.mem_map_of_mem Prod.fst hq')
              obtain ⟨u1, u2⟩ := e3 q.1 hne
              exact ⟨u1.trans (Function.update_same _ _ _),
                u2.trans (Function.update_same _ _ _)⟩
            · exact e4 hnd' q hq'
      · constructor
        · rw [perUpdLoop, if_neg hc]
          exact ⟨fun _ hall => hc (hall pr (List.mem_cons_self pr rest)), fun _ => rfl⟩
        · intro t ht
          rw [perUpdLoop, if_neg hc] at ht
          exact absurd ht (by simp)

theorem zip_foldl_max (as : List ℕ) :
    ∀ (bs : List ℚ) (m : ℚ), as.length = bs.length →
      (as.zip bs).foldl (fun acc pr => max acc pr.2) m = bs.foldl max m := by
  induction as with
  | nil =>
      intro bs m h
      cases bs with
      | nil => rfl
      | cons b bs => simp at h
  | cons a as ih =>
      intro bs m h
      cases bs with
      | nil => simp at h
      | cons b bs =>
          simp only [List.zip_cons_cons, List.foldl_cons]
          exact ih bs (max m b) (by simpa using h)

/-- C3: `updatePriorities(indices, priorities)` fails exactly when the two
lists have different lengths, some priority is non-positive, or some index
falls outside the occupied range; on success it writes `p ** alpha` into
the sum-tree and min-tree leaf of every given slot (leaving every other
leaf untouched) and ends with
`maxPriority = max(old maxPriority, max of the given priorities)`. -/
theorem updatePriorities_spec (alphaPow : ℚ → ℚ) (s : PERState)
    (idxs : List ℕ) (ps : List ℚ) :
    ((perUpdatePriorities alphaPow s idxs ps = Except.error ()) ↔
      ¬ (idxs.length = ps.length ∧
          ∀ pr ∈ idxs.zip ps, 0 < pr.2 ∧ pr.1 < s.memBuff.length)) ∧
    (∀ t, perUpdatePriorities alphaPow s idxs ps = Except.ok t →
      t.memBuff = s.memBuff ∧
      t.maxPriority = ps.foldl max s.maxPriority ∧
      (∀ j, (∀ pr ∈ idxs.zip ps, pr.1 ≠ j) →
        t.sumLeaf j = s.sumLeaf j ∧ t.minLeaf j = s.minLeaf j) ∧
      (idxs.Nodup → ∀ pr ∈ idxs.zip ps,
        t.sumLeaf pr.1 = alphaPow pr.2 ∧
        t.minLeaf pr.1 = ((alphaPow pr.2 : ℚ) : WithTop ℚ))) := by
  unfold perUpdatePriorities
  by_cases hlen : idxs.length = ps.length
  · rw [if_pos hlen]
    obtain ⟨l1, l2⟩ := perUpdLoop_spec alphaPow (idxs.zip ps) s
    constructor
    · rw [l1]
      constructor
      · intro hn hand
        exact hn hand.2
      · intro hn hall
        exact hn ⟨hlen, hall⟩
    · intro t ht
      obtain ⟨e1, e2, e3, e4⟩ := l2 t ht
      refine ⟨e1, ?_, e3, ?_⟩
      · rw [e2]
        exact zip_foldl_max idxs ps s.maxPriority hlen
      · intro hnd
        apply e4
        rw [List.map_fst_zip idxs ps (le_of_eq hlen)]
        exact hnd
  · rw [if_neg hlen]
    constructor
    · exact ⟨fun _ hand => hlen hand.1, fun _ => rfl⟩
    · intro t ht
      exact absurd ht (by simp)

theorem updatePriorities_spec_witness :
    (perUpdatePriorities id c3s [0] [(2 : ℚ)] = Except.ok c3t) ∧
    c3t.memBuff = c3s.memBuff ∧
    c3t.maxPriority = [(2 : ℚ)].foldl max c3s.maxPriority ∧
    (∀ j, (∀ pr ∈ ([0] : List ℕ).zip [(2 : ℚ)], pr.1 ≠ j) →
      c3t.sumLeaf j = c3s.sumLeaf j ∧ c3t.minLeaf j = c3s.minLeaf j) ∧
    ([0] : List ℕ).Nodup ∧
    (∀ pr ∈ ([0] : List ℕ).zip [(2 : ℚ)],
      c3t.sumLeaf pr.1 = id pr.2 ∧
      c3t.minLeaf pr.1 = ((id pr.2 : ℚ) : WithTop ℚ)) := by
  have hok : perUpdatePriorities id c3s [0] [(2 : ℚ)] = Except.ok c3t := by
    norm_num [perUpdatePriorities, perUpdLoop, c3s, c3t]
  obtain ⟨h1, h2, h3, h4⟩ := (updatePriorities_spec id c3s [0] [(2 : ℚ)]).2 c3t hok
  exact ⟨hok, h1, h2, h3, by decide, h4 (by decide)⟩

/-! ### Importance weights of prioritized sampling (C2) -/

theorem sum_ite_padded (f : ℕ → ℚ) (n cap : ℕ) (h : n ≤ cap) :
    cumSum (fun j => if j < n then f j else 0) cap = cumSum f n := by
  unfold cumSum
  rw [← Finset.sum_subset (Finset.range_subset.mpr h)
      (fun j _ hnj => if_neg (fun hlt => hnj (Finset.mem_range.mpr hlt)))]
  exact Finset.sum_congr rfl (fun j hj => if_pos (Finset.mem_range.mp hj))

theorem treeMin_wf (s : PERState) (f : ℕ → ℚ) (n : ℕ)
    (hmin : s.minLeaf = fun j => if j < n then ((f j : ℚ) : WithTop ℚ) else ⊤)
    (hn : 0 < n) (hcap : n ≤ perCapacity) :
    ∃ j0, j0 < n ∧ treeMin s = ((f j0 : ℚ) : WithTop ℚ) ∧ ∀ j, j < n → f j0 ≤ f j := by
  have h1 : treeMin s = (Finset.range n).inf s.minLeaf := by
    unfold treeMin
    apply le_antisymm
    · exact Finset.inf_mono (Finset.range_subset.mpr hcap)
    · apply Finset.le_inf
      intro j _
      by_cases hjn : j < n
      · exact Finset.inf_le (Finset.mem_range.mpr hjn)
      · rw [hmin]
        simp only [if_neg hjn]
        exact le_top
  have h2 : (Finset.range n).inf s.minLeaf
      = (Finset.range n).inf (fun j => ((f j : ℚ) : WithTop ℚ)) := by
    apply Finset.inf_congr rfl
    intro j hj
    rw [hmin]
    exact if_pos (Finset.mem_range.mp hj)
  have hne : (Finset.range n).Nonempty := ⟨0, Finset.mem_range.mpr hn⟩
  obtain ⟨j0, hj0mem, hj0⟩ :=
    Finset.exists_mem_eq_inf' hne (fun j => ((f j : ℚ) : WithTop ℚ))
  refine ⟨j0, Finset.mem_range.mp hj0mem, ?_, ?_⟩
  · rw [h1, h2, ← Finset.inf'_eq_inf hne, hj0]
  · intro j hj
    have hle : (Finset.range n).inf (fun j => ((f j : ℚ) : WithTop ℚ))
        ≤ ((f j : ℚ) : WithTop ℚ) := Finset.inf_le (Finset.mem_range.mpr hj)
    rw [← Finset.inf'_eq_inf hne, hj0] at hle
    exact WithTop.coe_le_coe.mp hle

theorem findFrom_le (p : ℕ → Bool) :
    ∀ (fuel start j : ℕ), start ≤ j → j < start + fuel → p j = true →
      findFrom p fuel start ≤ j := by
  intro fuel
  induction fuel with
  | zero =>
      intro start j h1 h2 _
      omega
  | succ fuel ih =>
      intro start j h1 h2 hp
      unfold findFrom
      cases hps : p start with
      | true =>
          rw [if_pos rfl]
          exact h1
      | false =>
          rw [if_neg (by simp)]
          have hne : start ≠ j := by
            intro e
            rw [e, hp] at hps
            exact Bool.noConfusion hps
          exact ih (start + 1) j (by omega) (by omega) hp

theorem findPrefixsumIdx_lt (leaf : ℕ → ℚ) (m : ℚ) (n : ℕ)
    (hn : 0 < n) (hcap : n ≤ perCapacity) (hm : m < cumSum leaf n) :
    findPrefixsumIdx leaf m < n := by
  have hp : (fun i => decide (m < cumSum leaf (i + 1))) (n - 1) = true := by
    simp only [decide_eq_true_eq]
    have he : n - 1 + 1 = n := by omega
    rw [he]
    exact hm
  have hle := findFrom_le (fun i => decide (m < cumSum leaf (i + 1)))
    perCapacity 0 (n - 1) (Nat.zero_le _) (by omega) hp
  unfold findPrefixsumIdx
  omega

theorem sampleProportional_mem (s : PERState) (f : ℕ → ℚ) (n : ℕ)
    (hwf : PERWellFormed s f n) (us : List ℚ) (hus : ∀ u ∈ us, 0 ≤ u ∧ u < 1) :
    ∀ idx ∈ sampleProportional s us, idx < n := by
  obtain ⟨hlen, hn, hcap, hsum, hmin, hf⟩ := hwf
  have hcap' : n ≤ perCapacity := le_trans hcap (by norm_num [BUFFER_SIZE, perCapacity])
  have htot : cumSum s.sumLeaf n = cumSum f n := by
    rw [hsum]
    unfold cumSum
    exact Finset.sum_congr rfl (fun j hj => if_pos (Finset.mem_range.mp hj))
  have htotpos : 0 < cumSum f n := by
    unfold cumSum
    exact Finset.sum_pos (fun j hj => hf j (Finset.mem_range.mp hj))
      ⟨0, Finset.mem_range.mpr hn⟩
  have hsub : cumSum s.sumLeaf (s.memBuff.length - 1) ≤ cumSum f n := by
    rw [hsum, hlen]
    unfold cumSum
    calc ∑ j ∈ Finset.range (n - 1), (if j < n then f j else 0)
        = ∑ j ∈ Finset.range (n - 1), f j :=
          Finset.sum_congr rfl (fun j hj =>
            if_pos (by have := Finset.mem_range.mp hj; omega))
      _ ≤ ∑ j ∈ Finset.range n, f j :=
          Finset.sum_le_sum_of_subset_of_nonneg
            (Finset.range_subset.mpr (by omega))
            (fun j hj _ => le_of_lt (hf j (Finset.mem_range.mp hj)))
  have hsubnonneg : 0 ≤ cumSum s.sumLeaf (s.memBuff.length - 1) := by
    rw [hsum, hlen]
    unfold cumSum
    apply Finset.sum_nonneg
    intro j hj
    have hj' : j < n - 1 := Finset.mem_range.mp hj
    rw [if_pos (by omega)]
    exact le_of_lt (hf j (by omega))
  intro idx hidx
  unfold sampleProportional at hidx
  rw [List.mem_map] at hidx
  obtain ⟨ui, hui, heq⟩ := hidx
  obtain ⟨huu, hur⟩ := List.of_mem_zip hui
  obtain ⟨hu0, hu1⟩ := hus ui.1 huu
  have hiB : ui.2 < BATCH_SIZE := List.mem_range.mp hur
  have hi3 : (ui.2 : ℚ) ≤ 3 := by
    have : ui.2 ≤ 3 := by
      have := hiB
      simp only [BATCH_SIZE] at this
      omega
    exact_mod_cast this
  have hB : ((BATCH_SIZE : ℕ) : ℚ) = 4 := by norm_num [BATCH_SIZE]
  rw [← heq]
  apply findPrefixsumIdx_lt s.sumLeaf _ n hn hcap'
  rw [htot, hB]
  set P := cumSum s.sumLeaf (s.memBuff.length - 1) with hP
  by_cases hPpos : 0 < P
  · have h4 : ui.1 + (ui.2 : ℚ) < 4 := by linarith
    have hquarter : 0 < P / 4 := by positivity
    have hmass : ui.1 * (P / 4) + (ui.2 : ℚ) * (P / 4) = (ui.1 + (ui.2 : ℚ)) * (P / 4) := by
      ring
    rw [hmass]
    have hlt : (ui.1 + (ui.2 : ℚ)) * (P / 4) < 4 * (P / 4) :=
      mul_lt_mul_of_pos_right h4 hquarter
    have h4P : 4 * (P / 4) = P := by ring
    rw [h4P] at hlt
    linarith
  · have hP0 : P = 0 := le_antisymm (not_lt.mp hPpos) hsubnonneg
    rw [hP0]
    simpa using htotpos

/-- C2: every importance weight returned by `memSample(beta)` on a
non-empty buffer with positive stored priorities is the normalized
`negPow(P(i) * N) / negPow(P(min) * N)` (with `P(i) = sumTree[i] / total`
and the normalizer taken from the global minimum priority), every sampled
index is an occupied slot, every weight is at most 1, and a sampled index
whose leaf carries the global minimum priority mass attains weight exactly
1 — the maximum.  `negPow` abstracts `x ↦ x ** (-beta)` for `beta ≥ 0`;
only its antitonicity and positivity on positive arguments are used. -/
theorem perMemSample_weights (negPow : ℚ → ℚ)
    (hmono : ∀ a b : ℚ, 0 < a → a ≤ b → negPow b ≤ negPow a)
    (hpos : ∀ a : ℚ, 0 < a → 0 < negPow a)
    (s : PERState) (f : ℕ → ℚ) (n : ℕ) (hwf : PERWellFormed s f n)
    (us : List ℚ) (hus : ∀ u ∈ us, 0 ≤ u ∧ u < 1) :
    (perMemSample negPow s us).1
      = (perMemSample negPow s us).2.map (perWeight negPow s) ∧
    (∀ idx ∈ (perMemSample negPow s us).2, idx < s.memBuff.length) ∧
    (∀ w ∈ (perMemSample negPow s us).1, w ≤ 1) ∧
    (∀ idx ∈ (perMemSample negPow s us).2,
      s.sumLeaf idx = WithTop.untop' 0 (treeMin s) → perWeight negPow s idx = 1) := by
  have hmem := sampleProportional_mem s f n hwf us hus
  obtain ⟨hlen, hn, hcap, hsum, hmin, hf⟩ := hwf
  have hcap' : n ≤ perCapacity := le_trans hcap (by norm_num [BUFFER_SIZE, perCapacity])
  have hS : treeSum s = cumSum f n := by
    unfold treeSum
    rw [hsum]
    exact sum_ite_padded f n perCapacity hcap'
  have hSpos : 0 < treeSum s := by
    rw [hS]
    unfold cumSum
    exact Finset.sum_pos (fun j hj => hf j (Finset.mem_range.mp hj))
      ⟨0, Finset.mem_range.mpr hn⟩
  obtain ⟨j0, hj0n, hj0min, hj0le⟩ := treeMin_wf s f n hmin hn hcap'
  have huntop : WithTop.untop' 0 (treeMin s) = f j0 := by
    rw [hj0min]
    exact WithTop.untop'_coe _ _
  have hNpos : 0 < (s.memBuff.length : ℚ) := by
    rw [hlen]
    exact_mod_cast hn
  have key1 : 0 < f j0 / treeSum s * (s.memBuff.length : ℚ) :=
    mul_pos (div_pos (hf j0 hj0n) hSpos) hNpos
  have hwle : ∀ idx, idx < n → perWeight negPow s idx ≤ 1 := by
    intro idx hidx
    simp only [perWeight, huntop]
    have hfidx : s.sumLeaf idx = f idx := by
      rw [hsum]
      exact if_pos hidx
    rw [hfidx]
    have key2 : f j0 / treeSum s * (s.memBuff.length : ℚ)
        ≤ f idx / treeSum s * (s.memBuff.length : ℚ) := by
      apply mul_le_mul_of_nonneg_right _ (le_of_lt hNpos)
      exact div_le_div_of_nonneg_right (hj0le idx hidx) (le_of_lt hSpos)
    rw [div_le_one (hpos _ key1)]
    exact hmono _ _ key1 key2
  refine ⟨rfl, ?_, ?_, ?_⟩
  · intro idx hidx
    rw [hlen]
    exact hmem idx hidx
  · intro w hw
    obtain ⟨idx, hidx, rfl⟩ := List.mem_map.mp hw
    exact hwle idx (hmem idx hidx)
  · intro idx _ hminidx
    simp only [perWeight]
    rw [hminidx, huntop]
    exact div_self (ne_of_gt (hpos _ key1))

theorem perMemSample_weights_witness :
    (∀ a b : ℚ, 0 < a → a ≤ b → 1 / b ≤ 1 / a) ∧
    (∀ a : ℚ, 0 < a → 0 < 1 / a) ∧
    PERWellFormed c2s (fun _ => 1) 1 ∧
    (∀ u ∈ ([0, 0, 0, 0] : List ℚ), 0 ≤ u ∧ u < 1) ∧
    ((perMemSample (fun x => 1 / x) c2s [0, 0, 0, 0]).1
      = (perMemSample (fun x => 1 / x) c2s [0, 0, 0, 0]).2.map
          (perWeight (fun x => 1 / x) c2s) ∧
    (∀ idx ∈ (perMemSample (fun x => 1 / x) c2s [0, 0, 0, 0]).2,
      idx < c2s.memBuff.length) ∧
    (∀ w ∈ (perMemSample (fun x => 1 / x) c2s [0, 0, 0, 0]).1, w ≤ 1) ∧
    (∀ idx ∈ (perMemSample (fun x => 1 / x) c2s [0, 0, 0, 0]).2,
      c2s.sumLeaf idx = WithTop.untop' 0 (treeMin c2s) →
        perWeight (fun x => 1 / x) c2s idx = 1)) := by
  have hmono : ∀ a b : ℚ, 0 < a → a ≤ b → 1 / b ≤ 1 / a :=
    fun a b ha hab => one_div_le_one_div_of_le ha hab
  have hpos : ∀ a : ℚ, 0 < a → 0 < 1 / a := fun a ha => one_div_pos.mpr ha
  have hwf : PERWellFormed c2s (fun _ => 1) 1 :=
    ⟨rfl, one_pos, by norm_num [BUFFER_SIZE], rfl, rfl, fun j _ => one_pos⟩
  have hus : ∀ u ∈ ([0, 0, 0, 0] : List ℚ), 0 ≤ u ∧ u < 1 := by
    intro u hu
    fin_cases hu <;> norm_num
  exact ⟨hmono, hpos, hwf, hus,
    perMemSample_weights (fun x => 1 / x) hmono hpos c2s (fun _ => 1) 1 hwf
      [0, 0, 0, 0] hus⟩

/-! ### Tree-slot / buffer-slot alignment of the prioritized buffer (C1) -/

theorem update_if_lt {β : Type} (c d : β) (n : ℕ) :
    Function.update (fun j => if j < n then c else d) n c
      = fun j => if j < n + 1 then c else d := by
  funext j
  by_cases hj : j = n
  · subst hj
    rw [Function.update_same]
    exact (if_pos (by omega)).symm
  · rw [Function.update_noteq hj]
    by_cases hlt : j < n
    · rw [if_pos hlt, if_pos (by omega)]
    · rw [if_neg hlt, if_neg (by omega)]

theorem update_if_between (c d : ℚ) (n : ℕ) :
    Function.update (fun t => if 1 ≤ t ∧ t ≤ n then c else d) (n + 1) c
      = fun t => if 1 ≤ t ∧ t ≤ n + 1 then c else d := by
  funext t
  by_cases ht : t = n + 1
  · subst ht
    rw [Function.update_same]
    exact (if_pos ⟨by omega, le_refl _⟩).symm
  · rw [Function.update_noteq ht]
    by_cases hc : 1 ≤ t ∧ t ≤ n
    · rw [if_pos hc, if_pos ⟨hc.1, by omega⟩]
    · rw [if_neg hc, if_neg (fun hcc => hc ⟨hcc.1, by omega⟩)]

theorem range'_drop_one (s n : ℕ) : (List.range' s (n + 1)).drop 1 = List.range' (s + 1) n := by
  rw [List.range'_succ]
  rfl

theorem perAddMem_memBuff (alphaPow : ℚ → ℚ) (s : PERState) (t : ℕ) :
    (perAddMem alphaPow s t).memBuff = dequeAppend BUFFER_SIZE s.memBuff t := rfl

theorem perAddMem_sumLeaf (alphaPow : ℚ → ℚ) (s : PERState) (t : ℕ) :
    (perAddMem alphaPow s t).sumLeaf
      = Function.update s.sumLeaf s.nextIdx (alphaPow s.maxPriority) := rfl

theorem perAddMem_minLeaf (alphaPow : ℚ → ℚ) (s : PERState) (t : ℕ) :
    (perAddMem alphaPow s t).minLeaf
      = Function.update s.minLeaf s.nextIdx ((alphaPow s.maxPriority : ℚ) : WithTop ℚ) := rfl

theorem perAddMem_prio (alphaPow : ℚ → ℚ) (s : PERState) (t : ℕ) :
    (perAddMem alphaPow s t).prio = Function.update s.prio t s.maxPriority := rfl

theorem perUpdStep_memBuff (alphaPow : ℚ → ℚ) (s : PERState) (i : ℕ) (p : ℚ) :
    (perUpdStep alphaPow s (i, p)).memBuff = s.memBuff := rfl

theorem perUpdStep_nextIdx (alphaPow : ℚ → ℚ) (s : PERState) (i : ℕ) (p : ℚ) :
    (perUpdStep alphaPow s (i, p)).nextIdx = s.nextIdx := rfl

theorem perUpdStep_maxPriority (alphaPow : ℚ → ℚ) (s : PERState) (i : ℕ) (p : ℚ) :
    (perUpdStep alphaPow s (i, p)).maxPriority = max s.maxPriority p := rfl

theorem perUpdStep_sumLeaf (alphaPow : ℚ → ℚ) (s : PERState) (i : ℕ) (p : ℚ) :
    (perUpdStep alphaPow s (i, p)).sumLeaf = Function.update s.sumLeaf i (alphaPow p) := rfl

theorem perUpdStep_minLeaf (alphaPow : ℚ → ℚ) (s : PERState) (i : ℕ) (p : ℚ) :
    (perUpdStep alphaPow s (i, p)).minLeaf
      = Function.update s.minLeaf i ((alphaPow p : ℚ) : WithTop ℚ) := rfl

theorem perUpdStep_prio (alphaPow : ℚ → ℚ) (s : PERState) (i : ℕ) (p : ℚ) :
    (perUpdStep alphaPow s (i, p)).prio
      = Function.update s.prio (s.memBuff.getD i 0) p := rfl

/-- Closed form of the prioritized buffer after `n ≤ BUFFER_SIZE` insertions
of the transitions labelled `1..n` into a fresh buffer: the deque holds
`1..n` in order, the write slot is `n mod BUFFER_SIZE`, `maxPriority` is
still `1.0`, both trees carry the seed mass on slots `[0, n)`, and every
inserted transition's ghost priority is the seed `1.0`. -/
theorem perAddList_range'_fields : ∀ (n : ℕ), n ≤ BUFFER_SIZE →
    (perAddList id PERinit (List.range' 1 n)).memBuff = List.range' 1 n ∧
    (perAddList id PERinit (List.range' 1 n)).nextIdx = n % BUFFER_SIZE ∧
    (perAddList id PERinit (List.range' 1 n)).maxPriority = 1 ∧
    (perAddList id PERinit (List.range' 1 n)).sumLeaf
      = (fun j => if j < n then 1 else 0) ∧
    (perAddList id PERinit (List.range' 1 n)).minLeaf
      = (fun j => if j < n then ((1 : ℚ) : WithTop ℚ) else ⊤) ∧
    (perAddList id PERinit (List.range' 1 n)).prio
      = (fun t => if 1 ≤ t ∧ t ≤ n then 1 else 0) := by
  intro n
  induction n with
  | zero =>
      intro _
      refine ⟨rfl, rfl, rfl, ?_, ?_, ?_⟩
      · funext j
        exact (if_neg (Nat.not_lt_zero j)).symm
      · funext j
        exact (if_neg (Nat.not_lt_zero j)).symm
      · funext t
        exact (if_neg (fun h => by omega)).symm
  | succ n ih =>
      intro hn1
      have hnB : n < BUFFER_SIZE := by omega
      obtain ⟨h1, h2, h3, h4, h5, h6⟩ := ih (by omega)
      have hmod : n % BUFFER_SIZE = n := Nat.mod_eq_of_lt hnB
      have hconc : List.range' 1 (n + 1) = List.range' 1 n ++ [n + 1] := by
        have h : List.range' 1 (n + 1) = List.range' 1 n ++ [1 + 1 * n] :=
          List.range'_concat 1 n
        simpa [Nat.add_comm] using h
      have hstep : perAddList id PERinit (List.range' 1 (n + 1))
          = perAddMem id (perAddList id PERinit (List.range' 1 n)) (n + 1) := by
        unfold perAddList
        rw [hconc, List.foldl_append, List.foldl_cons, List.foldl_nil]
      rw [hstep]
      refine ⟨?_, ?_, ?_, ?_, ?_, ?_⟩
      · show dequeAppend BUFFER_SIZE (perAddList id PERinit (List.range' 1 n)).memBuff (n + 1)
            = List.range' 1 (n + 1)
        rw [h1]
        unfold dequeAppend
        rw [if_pos (by rw [List.length_range']; exact hnB)]
        exact hconc.symm
      · show ((perAddList id PERinit (List.range' 1 n)).nextIdx + 1) % BUFFER_SIZE
            = (n + 1) % BUFFER_SIZE
        rw [h2, hmod]
      · exact h3
      · show Function.update (perAddList id PERinit (List.range' 1 n)).sumLeaf
            (perAddList id PERinit (List.range' 1 n)).nextIdx
            (id (perAddList id PERinit (List.range' 1 n)).maxPriority)
            = fun j => if j < n + 1 then 1 else 0
        rw [h2, hmod, h3, h4]
        exact update_if_lt 1 0 n
      · show Function.update (perAddList id PERinit (List.range' 1 n)).minLeaf
            (perAddList id PERinit (List.range' 1 n)).nextIdx
            ((id (perAddList id PERinit (List.range' 1 n)).maxPriority : ℚ) : WithTop ℚ)
            = fun j => if j < n + 1 then ((1 : ℚ) : WithTop ℚ) else ⊤
        rw [h2, hmod, h3, h5]
        exact update_if_lt ((1 : ℚ) : WithTop ℚ) ⊤ n
      · show Function.update (perAddList id PERinit (List.range' 1 n)).prio (n + 1)
            (perAddList id PERinit (List.range' 1 n)).maxPriority
            = fun t => if 1 ≤ t ∧ t ≤ n + 1 then 1 else 0
        rw [h3, h6]
        exact update_if_between 1 0 n

/-- C1 is violated by the code: after the deque wraps, the tree slots no
longer describe the transitions the buffer holds at those slots.  Run
100000 `addMem` calls (transitions `1..100000`), then
`updatePriorities([1], [2.0])` — slot 1 then correctly carries priority 2
for transition 2 — then one further `addMem` (transition `100001`).  The
new insertion is written to tree slot 0 (`nextIdx` wrapped), but the deque
shifts every stored transition left by one: slot 1 of the buffer now holds
transition 3, whose (ghost) priority is still the seed `1.0`, while the
sum-tree and min-tree leaves at slot 1 still hold `2.0` — the priority of
the evicted neighbour's transition.  `alphaPow` is instantiated at the
identity; since `p ↦ p ** alpha` is injective on positive floats, the same
mismatch (`2 ** alpha ≠ 1 ** alpha`) arises for the code's `alpha = 0.6`. -/
theorem per_slot_mismatch :
    ∃ t : PERState, c1s3 = Except.ok t ∧
      1 < t.memBuff.length ∧
      t.memBuff.getD 1 0 = 3 ∧
      t.sumLeaf 1 = 2 ∧
      t.minLeaf 1 = ((2 : ℚ) : WithTop ℚ) ∧
      t.prio (t.memBuff.getD 1 0) = 1 ∧
      t.sumLeaf 1 ≠ t.prio (t.memBuff.getD 1 0) := by
  obtain ⟨h1, h2, h3, h4, h5, h6⟩ := perAddList_range'_fields BUFFER_SIZE (le_refl _)
  have hbuf1 : c1s1.memBuff = List.range' 1 BUFFER_SIZE := h1
  have hidx0 : c1s1.nextIdx = 0 := h2.trans (Nat.mod_self _)
  have hcond : (0 : ℚ) < 2 ∧ 1 < c1s1.memBuff.length := by
    refine ⟨by norm_num, ?_⟩
    rw [hbuf1, List.length_range']
    norm_num [BUFFER_SIZE]
  have hup : perUpdatePriorities id c1s1 [1] [(2 : ℚ)]
      = Except.ok (perUpdStep id c1s1 (1, 2)) := by
    unfold perUpdatePriorities
    rw [if_pos (show ([1] : List ℕ).length = ([(2 : ℚ)] : List ℚ).length from rfl)]
    show perUpdLoop id [(1, (2 : ℚ))] c1s1 = _
    rw [perUpdLoop, if_pos hcond]
    rfl
  have hc1s3 : c1s3 = Except.ok (perAddMem id (perUpdStep id c1s1 (1, 2)) 100001) := by
    unfold c1s3
    rw [hup]
    rfl
  have hd82 : (1 : ℕ) ≤ (List.range' 1 BUFFER_SIZE).length := by
    rw [List.length_range']
    norm_num [BUFFER_SIZE]
  have hbuft : (perAddMem id (perUpdStep id c1s1 (1, 2)) 100001).memBuff
      = List.range' 2 99999 ++ [100001] := by
    rw [perAddMem_memBuff, perUpdStep_memBuff, hbuf1, dequeAppend_eq_drop,
      List.length_range', Nat.add_sub_cancel_left,
      List.drop_append_of_le_length hd82]
    congr 1
  have hlent : (perAddMem id (perUpdStep id c1s1 (1, 2)) 100001).memBuff.length
      = 100000 := by
    rw [hbuft, List.length_append, List.length_range']
    rfl
  have h1lt : 1 < (perAddMem id (perUpdStep id c1s1 (1, 2)) 100001).memBuff.length := by
    rw [hlent]
    norm_num
  have h99 : (1 : ℕ) < (List.range' 2 99999).length := by
    rw [List.length_range']
    norm_num
  have hget : (perAddMem id (perUpdStep id c1s1 (1, 2)) 100001).memBuff.getD 1 0 = 3 := by
    rw [hbuft, List.getD_append (List.range' 2 99999) [100001] 0 1 h99,
      List.getD_eq_getElem (List.range' 2 99999) 0 h99,
      List.getElem_range']
  have hsum1 : (perAddMem id (perUpdStep id c1s1 (1, 2)) 100001).sumLeaf 1 = 2 := by
    rw [perAddMem_sumLeaf, perUpdStep_nextIdx, hidx0,
      Function.update_noteq (by omega : (1 : ℕ) ≠ 0), perUpdStep_sumLeaf,
      Function.update_same]
    rfl
  have hmin1 : (perAddMem id (perUpdStep id c1s1 (1, 2)) 100001).minLeaf 1
      = ((2 : ℚ) : WithTop ℚ) := by
    rw [perAddMem_minLeaf, perUpdStep_nextIdx, hidx0,
      Function.update_noteq (by omega : (1 : ℕ) ≠ 0), perUpdStep_minLeaf,
      Function.update_same]
    rfl
  have hprio3 : (perAddMem id (perUpdStep id c1s1 (1, 2)) 100001).prio 3 = 1 := by
    rw [perAddMem_prio, Function.update_noteq (by omega : (3 : ℕ) ≠ 100001),
      perUpdStep_prio]
    have h1B : (1 : ℕ) < (List.range' 1 BUFFER_SIZE).length := by
      rw [List.length_range']
      norm_num [BUFFER_SIZE]
    have hgd : c1s1.memBuff.getD 1 0 = 2 := by
      rw [hbuf1, List.getD_eq_getElem (List.range' 1 BUFFER_SIZE) 0 h1B,
        List.getElem_range']
    rw [hgd, Function.update_noteq (by omega : (3 : ℕ) ≠ 2)]
    rw [show c1s1.prio = (fun t => if 1 ≤ t ∧ t ≤ BUFFER_SIZE then (1 : ℚ) else 0) from h6]
    exact if_pos ⟨by omega, by norm_num [BUFFER_SIZE]⟩
  refine ⟨perAddMem id (perUpdStep id c1s1 (1, 2)) 100001,
    hc1s3, h1lt, hget, hsum1, hmin1, ?_, ?_⟩
  · rw [hget]
    exact hprio3
  · rw [hget, hsum1, hprio3]
    norm_num

end DdqnAgent
